import Mathlib

/-!
Verification of the stroidok repository's CLI layer and of its documented
process-orchestration core.

The CLI layer (`ProgressBar`, `IndexCommand.validateConfig`) is embedded
directly from the Go sources in `src/unnamed/part_001`, `src/unnamed/part_002`
and `src/internal/cli`.  The orchestration core (priority queue, retry policy,
engine state machine) exists in the repository only as the design document
`src/docs/stroidex/specs/process-orchestration.md` with Go snippets; the
snippets are embedded where they are given and the remaining behaviour is
modelled from the specification's words.
-/

namespace Stroidok

/-! ### ProgressBar (from src/unnamed/part_002, Go package cli)

Go's `current`/`total` fields are `int64`; addition in `Add` can wrap, which
is modelled by an explicit two's-complement wrap.  The comparison/clamp logic
is a direct transcription of the Go bodies. -/

structure ProgressBar where
  total : Int
  current : Int
deriving DecidableEq, Repr

/-- Two's-complement wrap of an integer into the `int64` range, modelling Go's
`int64` addition overflow. -/
def wrap64 (x : Int) : Int := (x + 2 ^ 63) % 2 ^ 64 - 2 ^ 63

/-- `NewProgressBar` from part_002: `current` starts at 0. -/
def NewProgressBar (total : Int) : ProgressBar := ⟨total, 0⟩

/-- `ProgressBar.UpdateTo` from part_002: clamp below at 0, then clamp above
at `total` when `total > 0`. -/
def ProgressBar.UpdateTo (pb : ProgressBar) (value : Int) : ProgressBar :=
  let v1 := if value < 0 then 0 else value
  let v2 := if v1 > pb.total ∧ pb.total > 0 then pb.total else v1
  { pb with current := v2 }

/-- `ProgressBar.Add` from part_002: `current += delta` (int64 wrap), clamp
below at 0, then clamp above at `total` when `total > 0`. -/
def ProgressBar.Add (pb : ProgressBar) (delta : Int) : ProgressBar :=
  let c0 := wrap64 (pb.current + delta)
  let c1 := if c0 < 0 then 0 else c0
  let c2 := if c1 > pb.total ∧ pb.total > 0 then pb.total else c1
  { pb with current := c2 }

/-- `ProgressBar.Update` from part_002: increments by 1 via `Add`. -/
def ProgressBar.Update (pb : ProgressBar) : ProgressBar := pb.Add 1

/-- `ProgressBar.SetTotal` from part_002: replace `total`, clamp `current`
down to the new total when it exceeds it (no positivity guard in the Go). -/
def ProgressBar.SetTotal (pb : ProgressBar) (total : Int) : ProgressBar :=
  let c := if pb.current > total then total else pb.current
  ⟨total, c⟩

/-- `ProgressBar.Finish` from part_002: when `total > 0`, set `current` to
`total` (rendering/active flag not modelled: they do not touch the counters). -/
def ProgressBar.Finish (pb : ProgressBar) : ProgressBar :=
  if pb.total > 0 then { pb with current := pb.total } else pb

/-- `ProgressBar.GetProgress` from part_002: returns 0 when `total ≤ 0`,
otherwise `current / total` (Go `float64` division modelled exactly over ℚ). -/
def ProgressBar.GetProgress (pb : ProgressBar) : ℚ :=
  if pb.total ≤ 0 then 0 else (pb.current : ℚ) / (pb.total : ℚ)

/-- Calls that mutate a `ProgressBar`'s counters, for stating invariants over
arbitrary call sequences. -/
inductive PBOp where
  | updateTo (value : Int)
  | add (delta : Int)
  | update
  | finish
  | setTotal (total : Int)
deriving DecidableEq, Repr

def applyPBOp (pb : ProgressBar) : PBOp → ProgressBar
  | .updateTo v => pb.UpdateTo v
  | .add d => pb.Add d
  | .update => pb.Update
  | .finish => pb.Finish
  | .setTotal t => pb.SetTotal t

def applyPBOps (pb : ProgressBar) (ops : List PBOp) : ProgressBar :=
  ops.foldl applyPBOp pb

/-- A call is total-positive when it is not `SetTotal`, or sets a positive
total. -/
def pbOpPositive : PBOp → Prop
  | .setTotal t => 0 < t
  | _ => True

instance : DecidablePred pbOpPositive := fun op => by
  cases op <;> simp [pbOpPositive] <;> infer_instance

/-- The progress-bar counter invariant. -/
def PBInv (pb : ProgressBar) : Prop :=
  0 < pb.total ∧ 0 ≤ pb.current ∧ pb.current ≤ pb.total

/-! ### IndexCommand.validateConfig (from src/unnamed/part_001, Go package cli) -/

structure IndexConfig where
  maxWorkers : Int
  batchSize : Int
  indexType : String
deriving DecidableEq, Repr

/-- `IndexCommand.validateConfig` from part_001: checks workers ∈ [1,50],
batch size ∈ [1,10000], index type ∈ {full, incremental, partial}; returns the
first violated check's message, or `none` (Go `nil`). -/
def validateConfig (c : IndexConfig) : Option String :=
  if c.maxWorkers < 1 ∨ c.maxWorkers > 50 then
    some "workers count must be between 1 and 50"
  else if c.batchSize < 1 ∨ c.batchSize > 10000 then
    some "batch size must be between 1 and 10000"
  else if ¬ (c.indexType = "full" ∨ c.indexType = "incremental" ∨
      c.indexType = "partial") then
    some "invalid index type"
  else
    none

/-! ### PriorityQueue (from the Enqueue snippet in
src/docs/stroidex/specs/process-orchestration.md; ordering modelled from the
spec: binary heap keyed on (priority, sequence-counter), lower priority value
first, FIFO within equal priority). -/

structure QTask where
  id : Nat
  priority : Int
  seq : Nat
deriving DecidableEq, Repr

structure PriorityQueue where
  tasks : List QTask
  maxSize : Nat
  nextSeq : Nat
deriving DecidableEq, Repr

inductive QueueError where
  | queueFull
deriving DecidableEq, Repr

/-- `PriorityQueue.Enqueue` from the design doc: when the queue already holds
`maxSize` tasks it returns `ErrQueueFull` and leaves the queue untouched;
otherwise it stores the task, stamped with the next sequence counter. -/
def Enqueue (q : PriorityQueue) (t : QTask) : Option QueueError × PriorityQueue :=
  if q.maxSize ≤ q.tasks.length then
    (some .queueFull, q)
  else
    (none, ⟨q.tasks ++ [{ t with seq := q.nextSeq }], q.maxSize, q.nextSeq + 1⟩)

def emptyQueue (cap : Nat) : PriorityQueue := ⟨[], cap, 0⟩

def enqueueAll (q : PriorityQueue) : List QTask → List (Option QueueError) × PriorityQueue
  | [] => ([], q)
  | t :: rest =>
    let r := Enqueue q t
    let rs := enqueueAll r.2 rest
    (r.1 :: rs.1, rs.2)

/-- Dequeue order key written from the spec: lower numeric priority first,
ties broken by the enqueue sequence counter (FIFO). -/
def keyLE (a b : QTask) : Prop :=
  a.priority < b.priority ∨ (a.priority = b.priority ∧ a.seq ≤ b.seq)

instance : ∀ a b, Decidable (keyLE a b) := fun a b =>
  inferInstanceAs (Decidable (_ ∨ _))

def minKey (a b : QTask) : QTask := if keyLE a b then a else b

def selectMin (t : QTask) (l : List QTask) : QTask := l.foldl minKey t

/-- `PriorityQueue.Dequeue` (heap pop modelled from the spec): removes the
task minimal for `keyLE`; `none` on an empty queue. -/
def Dequeue (q : PriorityQueue) : Option (QTask × PriorityQueue) :=
  match q.tasks with
  | [] => none
  | t :: ts =>
    let m := selectMin t ts
    some (m, { q with tasks := (t :: ts).erase m })

/-- The full dequeue sequence of a queue's contents: repeatedly extract the
`keyLE`-minimal task, as `Dequeue` does. -/
def drain (l : List QTask) : List QTask :=
  match l with
  | [] => []
  | t :: ts => selectMin t ts :: drain ((t :: ts).erase (selectMin t ts))
termination_by l.length
decreasing_by
  have hmem : ∀ (l : List QTask) (a : QTask), selectMin a l ∈ a :: l := by
    intro l
    induction l with
    | nil => intro a; simp [selectMin]
    | cons b l ih =>
        intro a
        have h := ih (minKey a b)
        have hor : minKey a b = a ∨ minKey a b = b := by
          unfold minKey; split <;> simp
        have hsel : selectMin a (b :: l) = selectMin (minKey a b) l := rfl
        rw [hsel]
        rcases List.mem_cons.mp h with h' | h'
        · rw [h']
          rcases hor with he | he <;> simp [he]
        · simp [h']
  rw [List.length_erase_of_mem (hmem _ _)]
  simp

/-- The tasks of `ts` restamped with consecutive sequence numbers from `s`. -/
def withSeqs : List QTask → Nat → List QTask
  | [], _ => []
  | t :: rest, s => { t with seq := s } :: withSeqs rest (s + 1)

/-! ### Orchestrator (CoreEngine) state machine

Embedded from the Go snippets of
src/docs/stroidex/specs/process-orchestration.md (`Task`, `TaskType`,
`TaskStatus`, `processFile`, `Worker.processTask`, `processParseTask`) with
the parts the document leaves out — retry bookkeeping and the worker's
success/error handlers — modelled from the spec (§4.3–4.4).  Worker
execution of one task follows the doc's two phases: the collaborator call
returns (for a successful Parse, `processParseTask` enqueues the Index task
at this point, before any status write), and only then does the
success/error handler write the task's new status.  Queue membership is
represented by the `pending` status (§3: the queue holds references to
Pending tasks only). -/

inductive TaskKind where
  | parse | index | update | delete
deriving DecidableEq, Repr

inductive TaskStatus where
  | pending | running | completed | failed | retrying
deriving DecidableEq, Repr

structure ETask where
  id : Nat
  kind : TaskKind
  subject : String
  priority : Int
  status : TaskStatus
  attempt : Nat
  payload : Option String
deriving DecidableEq, Repr

structure EngineConfig where
  maxSize : Nat
  maxAttempts : Nat
deriving DecidableEq, Repr

/-- Engine state.  `outcomes` holds the worker-local execution results that
have been determined by a collaborator call (`processTask`'s `err` variable)
but not yet written back by `handleTaskSuccess`/`handleTaskError`: pairs of
task id and success flag. -/
structure EngineSt where
  cfg : EngineConfig
  tasks : List ETask
  nextId : Nat
  tasksTotal : Nat
  outcomes : List (Nat × Bool)
deriving DecidableEq, Repr

def countStatus (l : List ETask) (st : TaskStatus) : Nat :=
  l.countP (fun t => t.status == st)

/-- `CoreEngine.processFile` from the design doc: validate (not modelled —
always passes), create a Parse task, enqueue it subject to the queue bound.
Note: the documented body performs NO per-path deduplication. -/
def processFile (s : EngineSt) (path : String) (prio : Int) : Option EngineSt :=
  if s.cfg.maxSize ≤ countStatus s.tasks .pending then none
  else some { s with
    tasks := s.tasks ++ [⟨s.nextId, .parse, path, prio, .pending, 0, none⟩],
    nextId := s.nextId + 1,
    tasksTotal := s.tasksTotal + 1 }

/-- Replace the task with id `i` by `f` applied to it. -/
def updTask (l : List ETask) (i : Nat) (f : ETask → ETask) : List ETask :=
  l.map (fun t => if t.id = i then f t else t)

/-- A worker dequeues the Pending task `i` and marks it Running
(`processTask` step 2 in the design doc). -/
def startTask (s : EngineSt) (i : Nat) : Option EngineSt :=
  match s.tasks.find? (fun u => u.id == i) with
  | none => none
  | some t =>
    if t.status = .pending then
      some { s with
        tasks := updTask s.tasks i (fun u => { u with status := .running }) }
    else none

/-- A worker's collaborator call on Running task `i` returns (`processTask`
step 3, with outcome `ok`).  Per `processParseTask`, a successful Parse call
itself enqueues the Index task — same subject and priority, the parse output
as payload — BEFORE the success is reported back, so the task stays Running
here; when the Index enqueue would hit the queue bound, `Enqueue`'s error
becomes the task's outcome instead.  The determined outcome is recorded in
`outcomes` to be written back by a later `reportOutcome`. -/
def execTask (s : EngineSt) (i : Nat) (ok : Bool) : Option EngineSt :=
  match s.tasks.find? (fun u => u.id == i) with
  | none => none
  | some t =>
    if t.status = .running ∧ ¬ s.outcomes.any (fun e => e.1 == i) then
      if ok then
        if t.kind = .parse then
          if countStatus s.tasks .pending < s.cfg.maxSize then
            some { s with
              tasks := s.tasks ++ [⟨s.nextId, .index, t.subject, t.priority,
                .pending, 0, some t.subject⟩],
              nextId := s.nextId + 1,
              tasksTotal := s.tasksTotal + 1,
              outcomes := s.outcomes ++ [(i, true)] }
          else
            some { s with outcomes := s.outcomes ++ [(i, false)] }
        else
          some { s with outcomes := s.outcomes ++ [(i, true)] }
      else
        some { s with outcomes := s.outcomes ++ [(i, false)] }
    else none

/-- The worker reports the recorded outcome of task `i`
(`handleTaskSuccess`/`handleTaskError`, `processTask` steps 4-5): only now is
the task marked Completed, or — on failure, per the retry policy modelled
from spec §4.4 — Retrying with `attempt+1` while `attempt+1 < maxAttempts`,
else terminally Failed. -/
def reportOutcome (s : EngineSt) (i : Nat) : Option EngineSt :=
  match s.outcomes.find? (fun e => e.1 == i) with
  | none => none
  | some (_, ok) =>
    match s.tasks.find? (fun u => u.id == i) with
    | none => none
    | some t =>
      if t.status = .running then
        if ok then
          some { s with
            tasks := updTask s.tasks i (fun u => { u with status := .completed }),
            outcomes := s.outcomes.eraseP (fun e => e.1 == i) }
        else
          if t.attempt + 1 < s.cfg.maxAttempts then
            some { s with
              tasks := updTask s.tasks i
                (fun u => { u with status := .retrying, attempt := u.attempt + 1 }),
              outcomes := s.outcomes.eraseP (fun e => e.1 == i) }
          else
            some { s with
              tasks := updTask s.tasks i
                (fun u => { u with status := .failed, attempt := u.attempt + 1 }),
              outcomes := s.outcomes.eraseP (fun e => e.1 == i) }
      else none

/-- The retry timer fires and re-enqueues Retrying task `i` as Pending
(modelled from spec §4.4: deferred enqueue preserving priority). -/
def requeueTask (s : EngineSt) (i : Nat) : Option EngineSt :=
  match s.tasks.find? (fun u => u.id == i) with
  | none => none
  | some t =>
    if t.status = .retrying then
      some { s with
        tasks := updTask s.tasks i (fun u => { u with status := .pending }) }
    else none

/-- One atomic transition of the engine: an external Submit, a worker
dequeue, a collaborator call returning, an outcome write-back, or a
retry-timer re-enqueue. -/
inductive EngineStep : EngineSt → EngineSt → Prop where
  | submit {s s' : EngineSt} (path : String) (prio : Int)
      (h : processFile s path prio = some s') : EngineStep s s'
  | start {s s' : EngineSt} (i : Nat)
      (h : startTask s i = some s') : EngineStep s s'
  | exec {s s' : EngineSt} (i : Nat) (ok : Bool)
      (h : execTask s i ok = some s') : EngineStep s s'
  | report {s s' : EngineSt} (i : Nat)
      (h : reportOutcome s i = some s') : EngineStep s s'
  | requeue {s s' : EngineSt} (i : Nat)
      (h : requeueTask s i = some s') : EngineStep s s'

def initEngine (cfg : EngineConfig) : EngineSt := ⟨cfg, [], 0, 0, []⟩

def EngineReachable (cfg : EngineConfig) (s : EngineSt) : Prop :=
  Relation.ReflTransGen EngineStep (initEngine cfg) s

/-! Engine invariants -/

def InvIds (s : EngineSt) : Prop := ∀ t ∈ s.tasks, t.id < s.nextId

def InvUniq (s : EngineSt) : Prop :=
  List.Pairwise (fun a b : ETask => a.id ≠ b.id) s.tasks

def InvTotal (s : EngineSt) : Prop := s.tasksTotal = s.tasks.length

/-- The chain-ordering invariant: every Index task has a Parse task for the
same subject with the same priority, whose parse output the Index task
carries as payload, and that Parse task either is Completed or is still
Running with its success outcome already determined and awaiting write-back
(the window `processParseTask` opens by enqueuing before
`handleTaskSuccess` runs). -/
def InvIndex (s : EngineSt) : Prop :=
  ∀ t ∈ s.tasks, t.kind = .index →
    ∃ p ∈ s.tasks, p.kind = .parse ∧ p.subject = t.subject ∧
      p.priority = t.priority ∧ t.payload = some p.subject ∧
      (p.status = .completed ∨
        (p.status = .running ∧ (p.id, true) ∈ s.outcomes))

/-- Attempt counters stay within the retry bound: a Retrying task is strictly
below `maxAttempts`, and (for a meaningful bound) every task is at most
`maxAttempts` with non-terminal tasks strictly below. -/
def InvAttempt (s : EngineSt) : Prop :=
  ∀ t ∈ s.tasks,
    (t.status = .retrying → t.attempt < s.cfg.maxAttempts) ∧
    (0 < s.cfg.maxAttempts →
      t.attempt ≤ s.cfg.maxAttempts ∧
      ((t.status = .pending ∨ t.status = .running) →
        t.attempt < s.cfg.maxAttempts))

/-- The worker-local outcome records carry distinct task ids: a worker holds
at most one undelivered result per task. -/
def InvOutUniq (s : EngineSt) : Prop :=
  List.Pairwise (fun a b : Nat × Bool => a.1 ≠ b.1) s.outcomes

def EngineInv (s : EngineSt) : Prop :=
  InvIds s ∧ InvUniq s ∧ InvTotal s ∧ InvIndex s ∧ InvAttempt s ∧ InvOutUniq s

instance (s : EngineSt) : Decidable (InvIds s) :=
  inferInstanceAs (Decidable (∀ t ∈ s.tasks, t.id < s.nextId))

instance (s : EngineSt) : Decidable (InvUniq s) :=
  inferInstanceAs
    (Decidable (List.Pairwise (fun a b : ETask => a.id ≠ b.id) s.tasks))

instance (s : EngineSt) : Decidable (InvTotal s) :=
  inferInstanceAs (Decidable (s.tasksTotal = s.tasks.length))

instance (s : EngineSt) : Decidable (InvIndex s) :=
  inferInstanceAs (Decidable (∀ t ∈ s.tasks, t.kind = .index →
    ∃ p ∈ s.tasks, p.kind = .parse ∧ p.subject = t.subject ∧
      p.priority = t.priority ∧ t.payload = some p.subject ∧
      (p.status = .completed ∨
        (p.status = .running ∧ (p.id, true) ∈ s.outcomes))))

instance (s : EngineSt) : Decidable (InvOutUniq s) :=
  inferInstanceAs
    (Decidable (List.Pairwise (fun a b : Nat × Bool => a.1 ≠ b.1) s.outcomes))

instance (s : EngineSt) : Decidable (InvAttempt s) :=
  inferInstanceAs (Decidable (∀ t ∈ s.tasks,
    (t.status = .retrying → t.attempt < s.cfg.maxAttempts) ∧
    (0 < s.cfg.maxAttempts →
      t.attempt ≤ s.cfg.maxAttempts ∧
      ((t.status = .pending ∨ t.status = .running) →
        t.attempt < s.cfg.maxAttempts))))

instance (s : EngineSt) : Decidable (EngineInv s) :=
  inferInstanceAs (Decidable (InvIds s ∧ InvUniq s ∧ InvTotal s ∧
    InvIndex s ∧ InvAttempt s ∧ InvOutUniq s))

/-- The status transitions of the task state machine (spec §4.4):
Pending → Running → {Completed | Retrying | Failed}, Retrying → Pending. -/
inductive StatusEdge : TaskStatus → TaskStatus → Prop where
  | startE : StatusEdge .pending .running
  | completeE : StatusEdge .running .completed
  | retryE : StatusEdge .running .retrying
  | failE : StatusEdge .running .failed
  | requeueE : StatusEdge .retrying .pending

/-! ### Retry policy (modelled from spec §4.4 and the engine.retry defaults
of the design doc: max_attempts 3, initial_delay 1s, max_delay 30s,
backoff_factor 2.0).  Delays in milliseconds; the random jitter term is not
modelled (randomness). -/

def baseDelayMs : Nat := 1000

def maxDelayMs : Nat := 30000

/-- Modelled from the spec: `delay = min(maxDelay, baseDelay * 2^attempt)`. -/
def backoffDelay (attempt : Nat) : Nat :=
  min maxDelayMs (baseDelayMs * 2 ^ attempt)

/-- Modelled from the spec: execution trace of a task whose collaborator
always fails.  `failingTrace a rem` runs one execution with attempt counter
`a` and `rem` further executions remaining (`rem = maxAttempts - 1 - a`);
returns the number of executions and the backoff delays slept between
consecutive executions, each computed at the incremented attempt counter. -/
def failingTrace : Nat → Nat → Nat × List Nat
  | _, 0 => (1, [])
  | a, rem + 1 =>
    let r := failingTrace (a + 1) rem
    (r.1 + 1, backoffDelay (a + 1) :: r.2)

/-- A fresh task (attempt counter 0) with an always-failing collaborator
executes until the retry bound is exhausted. -/
def failingRun (maxAttempts : Nat) : Nat × List Nat :=
  failingTrace 0 (maxAttempts - 1)

/-! ### Shutdown accounting (modelled from the spec §5/§7: Running tasks at
the deadline are reported as still running, Pending (and Retrying, i.e.
pending-again-later) tasks are abandoned — not executed, not completed). -/

structure StopSnapshot where
  tasksTotal : Nat
  tasksCompleted : Nat
  tasksFailed : Nat
  tasksAbandoned : Nat
  tasksRunningAtShutdown : Nat
deriving DecidableEq, Repr

/-- Modelled from the spec: the final `Status()` snapshot after `Stop(ctx)`
returns at the deadline. -/
def StopStatus (s : EngineSt) : StopSnapshot :=
  ⟨s.tasksTotal,
   countStatus s.tasks .completed,
   countStatus s.tasks .failed,
   countStatus s.tasks .pending + countStatus s.tasks .retrying,
   countStatus s.tasks .running⟩

/-! Concrete engine traces used as witnesses -/

def exCfg : EngineConfig := ⟨10, 3⟩

def exDup1 : EngineSt :=
  ⟨exCfg, [⟨0, .parse, "a", 1, .pending, 0, none⟩], 1, 1, []⟩

def exDup2 : EngineSt :=
  ⟨exCfg, [⟨0, .parse, "a", 1, .pending, 0, none⟩,
           ⟨1, .parse, "a", 1, .pending, 0, none⟩], 2, 2, []⟩

def exRun1 : EngineSt :=
  ⟨exCfg, [⟨0, .parse, "a", 1, .running, 0, none⟩], 1, 1, []⟩

/-- The mid-window state: the Parse call for "a" has succeeded and
`processParseTask` has enqueued the Index task, but `handleTaskSuccess` has
not yet marked the Parse task Completed. -/
def exMid : EngineSt :=
  ⟨exCfg, [⟨0, .parse, "a", 1, .running, 0, none⟩,
           ⟨1, .index, "a", 1, .pending, 0, some "a"⟩], 2, 2, [(0, true)]⟩

def exDone : EngineSt :=
  ⟨exCfg, [⟨0, .parse, "a", 1, .completed, 0, none⟩,
           ⟨1, .index, "a", 1, .pending, 0, some "a"⟩], 2, 2, []⟩

def exRunFail : EngineSt :=
  ⟨exCfg, [⟨0, .parse, "b", 1, .running, 2, none⟩], 1, 1, [(0, false)]⟩

def exFailed : EngineSt :=
  ⟨exCfg, [⟨0, .parse, "b", 1, .failed, 3, none⟩], 1, 1, []⟩

def exFailed2 : EngineSt :=
  ⟨exCfg, [⟨0, .parse, "b", 1, .failed, 3, none⟩,
           ⟨1, .parse, "c", 1, .pending, 0, none⟩], 2, 2, []⟩

/-- How many tasks for `path` are in flight (Pending or Running). -/
def inFlightCount (s : EngineSt) (path : String) : Nat :=
  (s.tasks.filter (fun t => t.subject == path &&
    (t.status == TaskStatus.pending || t.status == TaskStatus.running))).length

lemma pbInv_updateTo {pb : ProgressBar} (h : PBInv pb) (v : Int) :
    PBInv (pb.UpdateTo v) := by
  obtain ⟨ht, h0, h1⟩ := h
  unfold ProgressBar.UpdateTo PBInv
  dsimp only
  split <;> split <;> simp_all <;> omega

lemma pbInv_add {pb : ProgressBar} (h : PBInv pb) (d : Int) :
    PBInv (pb.Add d) := by
  obtain ⟨ht, h0, h1⟩ := h
  unfold ProgressBar.Add PBInv
  dsimp only
  split <;> split <;> simp_all <;> omega

lemma pbInv_setTotal {pb : ProgressBar} (h : PBInv pb) (t : Int) (hpos : 0 < t) :
    PBInv (pb.SetTotal t) := by
  obtain ⟨ht, h0, h1⟩ := h
  unfold ProgressBar.SetTotal PBInv
  dsimp only
  split <;> simp_all <;> omega

lemma pbInv_finish {pb : ProgressBar} (h : PBInv pb) : PBInv pb.Finish := by
  obtain ⟨ht, h0, h1⟩ := h
  unfold ProgressBar.Finish PBInv
  split <;> simp_all <;> omega

lemma pbInv_applyOp {pb : ProgressBar} (h : PBInv pb) {op : PBOp}
    (hop : pbOpPositive op) : PBInv (applyPBOp pb op) := by
  cases op with
  | updateTo v => exact pbInv_updateTo h v
  | add d => exact pbInv_add h d
  | update => exact pbInv_add h 1
  | finish => exact pbInv_finish h
  | setTotal t => exact pbInv_setTotal h t hop

lemma pbInv_applyOps {pb : ProgressBar} (h : PBInv pb) {ops : List PBOp}
    (hops : ∀ op ∈ ops, pbOpPositive op) : PBInv (applyPBOps pb ops) := by
  induction ops generalizing pb with
  | nil => exact h
  | cons op rest ih =>
      exact ih (pbInv_applyOp h (hops op (by simp)))
        (fun o ho => hops o (by simp [ho]))

lemma keyLE_refl (a : QTask) : keyLE a a := by unfold keyLE; omega

lemma keyLE_total (a b : QTask) : keyLE a b ∨ keyLE b a := by
  unfold keyLE; omega

lemma keyLE_trans {a b c : QTask} (h1 : keyLE a b) (h2 : keyLE b c) :
    keyLE a c := by
  unfold keyLE at *; omega

lemma minKey_le_left (a b : QTask) : keyLE (minKey a b) a := by
  unfold minKey
  split
  · exact keyLE_refl a
  · next h => exact (keyLE_total a b).resolve_left h

lemma minKey_le_right (a b : QTask) : keyLE (minKey a b) b := by
  unfold minKey
  split
  · assumption
  · exact keyLE_refl b

lemma minKey_eq_or (a b : QTask) : minKey a b = a ∨ minKey a b = b := by
  unfold minKey; split <;> simp

lemma selectMin_mem (t : QTask) (l : List QTask) : selectMin t l ∈ t :: l := by
  induction l generalizing t with
  | nil => simp [selectMin]
  | cons b l ih =>
      have h : selectMin (minKey t b) l ∈ minKey t b :: l := ih (minKey t b)
      have hsel : selectMin t (b :: l) = selectMin (minKey t b) l := rfl
      rw [hsel]
      rcases List.mem_cons.mp h with h' | h'
      · rw [h']
        rcases minKey_eq_or t b with he | he <;> simp [he]
      · simp [h']

lemma selectMin_le (t : QTask) (l : List QTask) :
    ∀ x ∈ t :: l, keyLE (selectMin t l) x := by
  induction l generalizing t with
  | nil =>
      intro x hx
      rw [List.mem_singleton] at hx
      exact hx ▸ keyLE_refl t
  | cons b l ih =>
      intro x hx
      have hsel : selectMin t (b :: l) = selectMin (minKey t b) l := rfl
      have hmin : ∀ y ∈ minKey t b :: l, keyLE (selectMin (minKey t b) l) y :=
        ih (minKey t b)
      have hhead : keyLE (selectMin (minKey t b) l) (minKey t b) :=
        hmin _ (by simp)
      rcases List.mem_cons.mp hx with rfl | hx'
      · exact hsel ▸ keyLE_trans hhead (minKey_le_left x b)
      · rcases List.mem_cons.mp hx' with rfl | hx''
        · exact hsel ▸ keyLE_trans hhead (minKey_le_right t x)
        · exact hsel ▸ hmin _ (by simp [hx''])

lemma drain_nil : drain [] = [] := by simp only [drain]

lemma drain_cons (t : QTask) (ts : List QTask) :
    drain (t :: ts) = selectMin t ts ::
      drain ((t :: ts).erase (selectMin t ts)) := by
  simp only [drain]

lemma drain_perm (l : List QTask) : List.Perm (drain l) l := by
  induction l using drain.induct with
  | case1 => simp [drain_nil]
  | case2 t ts ih =>
      rw [drain_cons]
      exact (ih.cons _).trans (List.perm_cons_erase (selectMin_mem t ts)).symm

lemma drain_sorted (l : List QTask) : List.Sorted keyLE (drain l) := by
  induction l using drain.induct with
  | case1 => simp [drain_nil]
  | case2 t ts ih =>
      rw [drain_cons]
      refine List.sorted_cons.mpr ⟨?_, ih⟩
      intro b hb
      have hb1 : b ∈ ((t :: ts).erase (selectMin t ts)) :=
        (drain_perm _).mem_iff.mp hb
      exact selectMin_le t ts b (List.mem_of_mem_erase hb1)

lemma enqueue_maxSize (q : PriorityQueue) (t : QTask) :
    (Enqueue q t).2.maxSize = q.maxSize := by
  unfold Enqueue; split <;> rfl

lemma enqueueAll_tasks (ts : List QTask) :
    ∀ q : PriorityQueue, q.tasks.length + ts.length ≤ q.maxSize →
      (enqueueAll q ts).2.tasks = q.tasks ++ withSeqs ts q.nextSeq := by
  induction ts with
  | nil => intro q _; simp [enqueueAll, withSeqs]
  | cons t rest ih =>
      intro q hle
      have hlt : ¬ q.maxSize ≤ q.tasks.length := by
        simp only [List.length_cons] at hle; omega
      have henq : Enqueue q t =
          (none, ⟨q.tasks ++ [{ t with seq := q.nextSeq }], q.maxSize,
            q.nextSeq + 1⟩) := by
        unfold Enqueue; rw [if_neg hlt]
      have hstep : (enqueueAll q (t :: rest)).2 =
          (enqueueAll (Enqueue q t).2 rest).2 := rfl
      rw [hstep, henq]
      show (enqueueAll ⟨q.tasks ++ [{ t with seq := q.nextSeq }], q.maxSize,
        q.nextSeq + 1⟩ rest).2.tasks = q.tasks ++ withSeqs (t :: rest) q.nextSeq
      have hih := ih ⟨q.tasks ++ [{ t with seq := q.nextSeq }], q.maxSize,
          q.nextSeq + 1⟩
        (by
          show (q.tasks ++ [{ t with seq := q.nextSeq }]).length + rest.length
            ≤ q.maxSize
          simp only [List.length_cons] at hle
          simp only [List.length_append, List.length_singleton]
          omega)
      rw [hih]
      simp [withSeqs]

lemma withSeqs_map_seq (ts : List QTask) (s : Nat) :
    (withSeqs ts s).map (·.seq) = List.range' s ts.length := by
  induction ts generalizing s with
  | nil => simp [withSeqs]
  | cons t rest ih => simp [withSeqs, List.range', ih]

/-! Basic facts about task lookup and update -/

lemma find?_mem_id {l : List ETask} {i : Nat} {t : ETask}
    (h : l.find? (fun u => u.id == i) = some t) : t ∈ l ∧ t.id = i := by
  refine ⟨List.mem_of_find?_eq_some h, ?_⟩
  have hp := List.find?_some h
  simpa using hp

lemma unique_by_id {l : List ETask}
    (hp : List.Pairwise (fun a b : ETask => a.id ≠ b.id) l)
    {a b : ETask} (ha : a ∈ l) (hb : b ∈ l) (hid : a.id = b.id) : a = b := by
  by_contra hne
  have hsym : Symmetric (fun a b : ETask => a.id ≠ b.id) :=
    fun x y hxy he => hxy he.symm
  exact List.Pairwise.forall hsym hp ha hb hne hid

lemma updTask_length (l : List ETask) (i : Nat) (f : ETask → ETask) :
    (updTask l i f).length = l.length := List.length_map l _

lemma mem_updTask_of_ne {l : List ETask} {i : Nat} {f : ETask → ETask}
    {u : ETask} (hu : u ∈ l) (hne : u.id ≠ i) : u ∈ updTask l i f :=
  List.mem_map.mpr ⟨u, hu, by rw [if_neg hne]⟩

lemma mem_updTask_self {l : List ETask} {i : Nat} {f : ETask → ETask}
    {u : ETask} (hu : u ∈ l) (heq : u.id = i) : f u ∈ updTask l i f :=
  List.mem_map.mpr ⟨u, hu, by rw [if_pos heq]⟩

lemma of_mem_updTask {l : List ETask} {i : Nat} {f : ETask → ETask}
    {t' : ETask} (h : t' ∈ updTask l i f) :
    ∃ u ∈ l, (u.id ≠ i ∧ t' = u) ∨ (u.id = i ∧ t' = f u) := by
  obtain ⟨u, hu, he⟩ := List.mem_map.mp h
  refine ⟨u, hu, ?_⟩
  by_cases hc : u.id = i
  · right; exact ⟨hc, by rw [if_pos hc] at he; exact he.symm⟩
  · left; exact ⟨hc, by rw [if_neg hc] at he; exact he.symm⟩

/-! Characterizations of the step functions -/

lemma processFile_some {s : EngineSt} {p : String} {pr : Int} {s' : EngineSt}
    (h : processFile s p pr = some s') :
    countStatus s.tasks .pending < s.cfg.maxSize ∧
    s' = { s with
      tasks := s.tasks ++ [⟨s.nextId, .parse, p, pr, .pending, 0, none⟩],
      nextId := s.nextId + 1, tasksTotal := s.tasksTotal + 1 } := by
  unfold processFile at h
  split at h
  · cases h
  · next hc => exact ⟨by omega, (Option.some.inj h).symm⟩

lemma startTask_some {s : EngineSt} {i : Nat} {s' : EngineSt}
    (h : startTask s i = some s') :
    ∃ t, s.tasks.find? (fun u => u.id == i) = some t ∧ t.status = .pending ∧
      s' = { s with
        tasks := updTask s.tasks i (fun u => { u with status := .running }) } := by
  unfold startTask at h
  split at h
  · cases h
  · next t hfind =>
      split at h
      · next hst => exact ⟨t, hfind, hst, (Option.some.inj h).symm⟩
      · cases h

lemma execTask_some {s : EngineSt} {i : Nat} {ok : Bool} {s' : EngineSt}
    (h : execTask s i ok = some s') :
    ∃ t, s.tasks.find? (fun u => u.id == i) = some t ∧ t.status = .running ∧
      ¬ s.outcomes.any (fun e => e.1 == i) ∧
      ((ok = true ∧ t.kind = .parse ∧
        countStatus s.tasks .pending < s.cfg.maxSize ∧
        s' = { s with
          tasks := s.tasks ++ [⟨s.nextId, .index, t.subject, t.priority,
            .pending, 0, some t.subject⟩],
          nextId := s.nextId + 1, tasksTotal := s.tasksTotal + 1,
          outcomes := s.outcomes ++ [(i, true)] }) ∨
      (ok = true ∧ t.kind = .parse ∧
        s.cfg.maxSize ≤ countStatus s.tasks .pending ∧
        s' = { s with outcomes := s.outcomes ++ [(i, false)] }) ∨
      (ok = true ∧ ¬ t.kind = .parse ∧
        s' = { s with outcomes := s.outcomes ++ [(i, true)] }) ∨
      (ok = false ∧
        s' = { s with outcomes := s.outcomes ++ [(i, false)] })) := by
  unfold execTask at h
  split at h
  · cases h
  · next t hfind =>
      split at h
      · next hcond =>
          refine ⟨t, hfind, hcond.1, hcond.2, ?_⟩
          cases ok with
          | true =>
              rw [if_pos rfl] at h
              split at h
              · next hk =>
                  split at h
                  · next hcap =>
                      exact Or.inl ⟨rfl, hk, hcap, (Option.some.inj h).symm⟩
                  · next hcap =>
                      exact Or.inr (Or.inl ⟨rfl, hk, by omega,
                        (Option.some.inj h).symm⟩)
              · next hk =>
                  exact Or.inr (Or.inr (Or.inl ⟨rfl, hk,
                    (Option.some.inj h).symm⟩))
          | false =>
              rw [if_neg (by simp)] at h
              exact Or.inr (Or.inr (Or.inr ⟨rfl, (Option.some.inj h).symm⟩))
      · cases h

lemma reportOutcome_some {s : EngineSt} {i : Nat} {s' : EngineSt}
    (h : reportOutcome s i = some s') :
    ∃ ok t, s.outcomes.find? (fun e => e.1 == i) = some (i, ok) ∧
      s.tasks.find? (fun u => u.id == i) = some t ∧ t.status = .running ∧
      ((ok = true ∧
        s' = { s with
          tasks := updTask s.tasks i (fun u => { u with status := .completed }),
          outcomes := s.outcomes.eraseP (fun e => e.1 == i) }) ∨
      (ok = false ∧ t.attempt + 1 < s.cfg.maxAttempts ∧
        s' = { s with
          tasks := updTask s.tasks i
            (fun u => { u with status := .retrying, attempt := u.attempt + 1 }),
          outcomes := s.outcomes.eraseP (fun e => e.1 == i) }) ∨
      (ok = false ∧ s.cfg.maxAttempts ≤ t.attempt + 1 ∧
        s' = { s with
          tasks := updTask s.tasks i
            (fun u => { u with status := .failed, attempt := u.attempt + 1 }),
          outcomes := s.outcomes.eraseP (fun e => e.1 == i) })) := by
  unfold reportOutcome at h
  split at h
  · cases h
  · next j ok hfinde =>
      have hj : j = i := by simpa using List.find?_some hfinde
      subst hj
      split at h
      · cases h
      · next t hfindt =>
          split at h
          · next hst =>
              refine ⟨ok, t, hfinde, hfindt, hst, ?_⟩
              cases ok with
              | true =>
                  rw [if_pos rfl] at h
                  exact Or.inl ⟨rfl, (Option.some.inj h).symm⟩
              | false =>
                  rw [if_neg (by simp)] at h
                  split at h
                  · next ha =>
                      exact Or.inr (Or.inl ⟨rfl, ha, (Option.some.inj h).symm⟩)
                  · next ha =>
                      exact Or.inr (Or.inr ⟨rfl, by omega,
                        (Option.some.inj h).symm⟩)
          · cases h

lemma requeueTask_some {s : EngineSt} {i : Nat} {s' : EngineSt}
    (h : requeueTask s i = some s') :
    ∃ t, s.tasks.find? (fun u => u.id == i) = some t ∧ t.status = .retrying ∧
      s' = { s with
        tasks := updTask s.tasks i (fun u => { u with status := .pending }) } := by
  unfold requeueTask at h
  split at h
  · cases h
  · next t hfind =>
      split at h
      · next hst => exact ⟨t, hfind, hst, (Option.some.inj h).symm⟩
      · cases h

lemma engineStep_cfg {s s' : EngineSt} (h : EngineStep s s') : s'.cfg = s.cfg := by
  cases h with
  | submit p pr h => rw [(processFile_some h).2]
  | start i h => obtain ⟨t, _, _, rfl⟩ := startTask_some h; rfl
  | exec i ok h =>
      obtain ⟨t, _, _, _, hc⟩ := execTask_some h
      rcases hc with ⟨_, _, _, rfl⟩ | ⟨_, _, _, rfl⟩ | ⟨_, _, rfl⟩ | ⟨_, rfl⟩ <;>
        rfl
  | report i h =>
      obtain ⟨ok, t, _, _, _, hc⟩ := reportOutcome_some h
      rcases hc with ⟨_, rfl⟩ | ⟨_, _, rfl⟩ | ⟨_, _, rfl⟩ <;> rfl
  | requeue i h => obtain ⟨t, _, _, rfl⟩ := requeueTask_some h; rfl

/-! Invariant preservation -/

lemma invCore_updTask {s : EngineSt} (hinv : EngineInv s) (i : Nat)
    (f : ETask → ETask) (hid : ∀ u, (f u).id = u.id) :
    InvIds { s with tasks := updTask s.tasks i f } ∧
    InvUniq { s with tasks := updTask s.tasks i f } ∧
    InvTotal { s with tasks := updTask s.tasks i f } := by
  obtain ⟨hids, huniq, htot, -, -⟩ := hinv
  have hg : ∀ u : ETask,
      ((fun v => if v.id = i then f v else v) u).id = u.id := by
    intro u; dsimp only; split
    · exact hid u
    · rfl
  refine ⟨?_, ?_, ?_⟩
  · intro t' ht'
    obtain ⟨u, hu, hc⟩ := of_mem_updTask ht'
    rcases hc with ⟨_, rfl⟩ | ⟨_, rfl⟩
    · exact hids _ hu
    · show (f u).id < s.nextId
      rw [hid u]; exact hids u hu
  · show List.Pairwise _ (updTask s.tasks i f)
    unfold updTask
    rw [List.pairwise_map]
    exact huniq.imp (fun {a b} h => by
      show (if a.id = i then f a else a).id ≠ (if b.id = i then f b else b).id
      rw [hg a, hg b]; exact h)
  · show s.tasksTotal = (updTask s.tasks i f).length
    rw [updTask_length]; exact htot

/-- Updating a task that is neither Completed nor Running (so not a Parse
task an Index task could reference) preserves the chain invariant, the
outcome records being untouched. -/
lemma invIndex_updTask_inactive {s : EngineSt} {i : Nat} {t : ETask}
    (hinv : EngineInv s) (f : ETask → ETask)
    (hfind : s.tasks.find? (fun u => u.id == i) = some t)
    (hnc : t.status ≠ .completed) (hnr : t.status ≠ .running)
    (hid : ∀ u, (f u).id = u.id)
    (hkind : ∀ u, (f u).kind = u.kind)
    (hsub : ∀ u, (f u).subject = u.subject)
    (hpri : ∀ u, (f u).priority = u.priority)
    (hpay : ∀ u, (f u).payload = u.payload) :
    InvIndex { s with tasks := updTask s.tasks i f } := by
  obtain ⟨-, huniq, -, hidx, -⟩ := hinv
  obtain ⟨htmem, htid⟩ := find?_mem_id hfind
  intro t' ht' hk
  obtain ⟨u, hu, hc⟩ := of_mem_updTask ht'
  have hukind : t'.kind = u.kind := by
    rcases hc with ⟨_, rfl⟩ | ⟨_, rfl⟩
    · rfl
    · exact hkind u
  have hufields : t'.subject = u.subject ∧ t'.priority = u.priority ∧
      t'.payload = u.payload := by
    rcases hc with ⟨_, rfl⟩ | ⟨_, rfl⟩
    · exact ⟨rfl, rfl, rfl⟩
    · exact ⟨hsub u, hpri u, hpay u⟩
  obtain ⟨p, hp, hpk, hpsub, hppri, hupay, hpst⟩ :=
    hidx u hu (by rw [← hukind, hk])
  have hpne : p.id ≠ i := by
    intro hpe
    have hpt : p = t := unique_by_id huniq hp htmem (by rw [hpe, htid])
    rcases hpst with hc1 | hc1
    · exact hnc (hpt ▸ hc1)
    · exact hnr (hpt ▸ hc1.1)
  refine ⟨p, mem_updTask_of_ne hp hpne, hpk, ?_, ?_, ?_, hpst⟩
  · rw [hpsub, ← hufields.1]
  · rw [hppri, ← hufields.2.1]
  · rw [hufields.2.2]; exact hupay

lemma engineInv_processFile {s : EngineSt} {p : String} {pr : Int}
    {s' : EngineSt} (hinv : EngineInv s) (h : processFile s p pr = some s') :
    EngineInv s' := by
  obtain ⟨hids, huniq, htot, hidx, hatt, hout⟩ := hinv
  obtain ⟨-, rfl⟩ := processFile_some h
  set nt : ETask := ⟨s.nextId, .parse, p, pr, .pending, 0, none⟩ with hnt
  refine ⟨?_, ?_, ?_, ?_, ?_, hout⟩
  · intro t' ht'
    rcases List.mem_append.mp ht' with h1 | h1
    · exact Nat.lt_succ_of_lt (hids t' h1)
    · rw [List.mem_singleton.mp h1]; exact Nat.lt_succ_self _
  · show List.Pairwise _ (s.tasks ++ [nt])
    rw [List.pairwise_append]
    refine ⟨huniq, List.pairwise_singleton _ _, ?_⟩
    intro a ha b hb
    rw [List.mem_singleton.mp hb]
    exact Nat.ne_of_lt (hids a ha)
  · show s.tasksTotal + 1 = (s.tasks ++ [nt]).length
    rw [List.length_append, List.length_singleton, htot]
  · intro t' ht' hk
    rcases List.mem_append.mp ht' with h1 | h1
    · obtain ⟨q, hq, hrest⟩ := hidx t' h1 hk
      exact ⟨q, List.mem_append_left _ hq, hrest⟩
    · rw [List.mem_singleton.mp h1] at hk
      cases hk
  · intro t' ht'
    rcases List.mem_append.mp ht' with h1 | h1
    · exact hatt t' h1
    · rw [List.mem_singleton.mp h1]
      exact ⟨(fun hc => by cases hc), fun hm => ⟨Nat.zero_le _, fun _ => hm⟩⟩

lemma engineInv_startTask {s : EngineSt} {i : Nat} {s' : EngineSt}
    (hinv : EngineInv s) (h : startTask s i = some s') : EngineInv s' := by
  obtain ⟨t, hfind, hst, rfl⟩ := startTask_some h
  have hcore := invCore_updTask hinv i
    (fun u => { u with status := TaskStatus.running }) (fun u => rfl)
  have hidx' := invIndex_updTask_inactive hinv
    (fun u => { u with status := TaskStatus.running }) hfind
    (by rw [hst]; intro hc; cases hc) (by rw [hst]; intro hc; cases hc)
    (fun u => rfl) (fun u => rfl) (fun u => rfl) (fun u => rfl) (fun u => rfl)
  obtain ⟨htmem, htid⟩ := find?_mem_id hfind
  refine ⟨hcore.1, hcore.2.1, hcore.2.2, hidx', ?_, hinv.2.2.2.2.2⟩
  intro t' ht'
  obtain ⟨u, hu, hc⟩ := of_mem_updTask ht'
  have hattu := hinv.2.2.2.2.1 u hu
  rcases hc with ⟨_, rfl⟩ | ⟨hui, rfl⟩
  · exact hattu
  · have hut : u = t := unique_by_id hinv.2.1 hu htmem (by rw [hui, htid])
    subst hut
    refine ⟨(fun hc => by cases hc), fun hm => ⟨(hattu.2 hm).1, fun _ => ?_⟩⟩
    exact (hattu.2 hm).2 (Or.inl hst)

lemma engineInv_requeueTask {s : EngineSt} {i : Nat} {s' : EngineSt}
    (hinv : EngineInv s) (h : requeueTask s i = some s') : EngineInv s' := by
  obtain ⟨t, hfind, hst, rfl⟩ := requeueTask_some h
  have hcore := invCore_updTask hinv i
    (fun u => { u with status := TaskStatus.pending }) (fun u => rfl)
  have hidx' := invIndex_updTask_inactive hinv
    (fun u => { u with status := TaskStatus.pending }) hfind
    (by rw [hst]; intro hc; cases hc) (by rw [hst]; intro hc; cases hc)
    (fun u => rfl) (fun u => rfl) (fun u => rfl) (fun u => rfl) (fun u => rfl)
  obtain ⟨htmem, htid⟩ := find?_mem_id hfind
  refine ⟨hcore.1, hcore.2.1, hcore.2.2, hidx', ?_, hinv.2.2.2.2.2⟩
  intro t' ht'
  obtain ⟨u, hu, hc⟩ := of_mem_updTask ht'
  have hattu := hinv.2.2.2.2.1 u hu
  rcases hc with ⟨_, rfl⟩ | ⟨hui, rfl⟩
  · exact hattu
  · have hut : u = t := unique_by_id hinv.2.1 hu htmem (by rw [hui, htid])
    subst hut
    have hlt : u.attempt < s.cfg.maxAttempts := hattu.1 hst
    exact ⟨(fun hc => by cases hc),
      fun _ => ⟨Nat.le_of_lt hlt, fun _ => hlt⟩⟩

lemma unique_by_fst {l : List (Nat × Bool)}
    (hp : List.Pairwise (fun a b : Nat × Bool => a.1 ≠ b.1) l)
    {a b : Nat × Bool} (ha : a ∈ l) (hb : b ∈ l) (h1 : a.1 = b.1) : a = b := by
  by_contra hne
  have hsym : Symmetric (fun a b : Nat × Bool => a.1 ≠ b.1) :=
    fun x y hxy he => hxy he.symm
  exact List.Pairwise.forall hsym hp ha hb hne h1

lemma mem_eraseP_of_not {l : List (Nat × Bool)} {p : Nat × Bool → Bool}
    {a : Nat × Bool} (ha : a ∈ l) (hpa : ¬ p a = true) : a ∈ l.eraseP p := by
  induction l with
  | nil => cases ha
  | cons b l ih =>
      by_cases hb : p b = true
      · rw [List.eraseP_cons_of_pos hb]
        rcases List.mem_cons.mp ha with rfl | h1
        · exact absurd hb hpa
        · exact h1
      · rw [List.eraseP_cons_of_neg (by simpa using hb)]
        rcases List.mem_cons.mp ha with rfl | h1
        · exact List.mem_cons_self _ _
        · exact List.mem_cons_of_mem _ (ih h1)

/-- Recording a fresh outcome entry preserves the engine invariant. -/
lemma engineInv_appendOutcome {s : EngineSt} (hinv : EngineInv s)
    (i : Nat) (b : Bool) (hni : ∀ e ∈ s.outcomes, e.1 ≠ i) :
    EngineInv { s with outcomes := s.outcomes ++ [(i, b)] } := by
  obtain ⟨hids, huniq, htot, hidx, hatt, hout⟩ := hinv
  refine ⟨hids, huniq, htot, ?_, hatt, ?_⟩
  · intro t' ht' hk
    obtain ⟨p, hp, hpk, hpsub, hppri, hpay', hpst⟩ := hidx t' ht' hk
    refine ⟨p, hp, hpk, hpsub, hppri, hpay', ?_⟩
    rcases hpst with h1 | ⟨h1, h2⟩
    · exact Or.inl h1
    · exact Or.inr ⟨h1, List.mem_append_left _ h2⟩
  · show List.Pairwise _ (s.outcomes ++ [(i, b)])
    rw [List.pairwise_append]
    refine ⟨hout, List.pairwise_singleton _ _, ?_⟩
    intro a ha c hc
    rw [List.mem_singleton.mp hc]
    exact hni a ha

lemma engineInv_execTask {s : EngineSt} {i : Nat} {ok : Bool} {s' : EngineSt}
    (hinv : EngineInv s) (h : execTask s i ok = some s') : EngineInv s' := by
  obtain ⟨t, hfind, hst, hna, hcases⟩ := execTask_some h
  obtain ⟨htmem, htid⟩ := find?_mem_id hfind
  have hni : ∀ e ∈ s.outcomes, e.1 ≠ i := by
    intro e he hei
    exact hna (List.any_eq_true.mpr ⟨e, he, by simp [hei]⟩)
  rcases hcases with ⟨-, hk, -, rfl⟩ | ⟨-, -, -, rfl⟩ | ⟨-, -, rfl⟩ | ⟨-, rfl⟩
  · -- the Parse call succeeded and processParseTask enqueued the Index task:
    -- the Parse task is still Running, its success recorded in outcomes
    obtain ⟨hids, huniq, htot, hidx, hatt, hout⟩ := hinv
    set nt : ETask :=
      ⟨s.nextId, .index, t.subject, t.priority, .pending, 0, some t.subject⟩
      with hnt
    refine ⟨?_, ?_, ?_, ?_, ?_, ?_⟩
    · intro t' ht'
      rcases List.mem_append.mp ht' with h1 | h1
      · exact Nat.lt_succ_of_lt (hids t' h1)
      · rw [List.mem_singleton.mp h1]; exact Nat.lt_succ_self _
    · show List.Pairwise _ (s.tasks ++ [nt])
      rw [List.pairwise_append]
      refine ⟨huniq, List.pairwise_singleton _ _, ?_⟩
      intro a ha b hb
      rw [List.mem_singleton.mp hb]
      exact Nat.ne_of_lt (hids a ha)
    · show s.tasksTotal + 1 = (s.tasks ++ [nt]).length
      rw [List.length_append, List.length_singleton, htot]
    · intro t' ht' hk'
      rcases List.mem_append.mp ht' with h1 | h1
      · obtain ⟨p, hp, hpk, hpsub, hppri, hpay', hpst⟩ := hidx t' h1 hk'
        refine ⟨p, List.mem_append_left _ hp, hpk, hpsub, hppri, hpay', ?_⟩
        rcases hpst with h2 | ⟨h2, h3⟩
        · exact Or.inl h2
        · exact Or.inr ⟨h2, List.mem_append_left _ h3⟩
      · rw [List.mem_singleton.mp h1]
        refine ⟨t, List.mem_append_left _ htmem, hk, rfl, rfl, rfl, ?_⟩
        refine Or.inr ⟨hst, ?_⟩
        rw [htid]
        exact List.mem_append_right _ (List.mem_singleton.mpr rfl)
    · intro t' ht'
      rcases List.mem_append.mp ht' with h1 | h1
      · exact hatt t' h1
      · rw [List.mem_singleton.mp h1]
        exact ⟨(fun hc => by cases hc), fun hm => ⟨Nat.zero_le _, fun _ => hm⟩⟩
    · show List.Pairwise _ (s.outcomes ++ [(i, true)])
      rw [List.pairwise_append]
      refine ⟨hout, List.pairwise_singleton _ _, ?_⟩
      intro a ha c hc
      rw [List.mem_singleton.mp hc]
      exact hni a ha
  · exact engineInv_appendOutcome hinv i false hni
  · exact engineInv_appendOutcome hinv i true hni
  · exact engineInv_appendOutcome hinv i false hni

lemma engineInv_reportOutcome {s : EngineSt} {i : Nat} {s' : EngineSt}
    (hinv : EngineInv s) (h : reportOutcome s i = some s') : EngineInv s' := by
  obtain ⟨ok, t, hfinde, hfindt, hst, hcases⟩ := reportOutcome_some h
  obtain ⟨htmem, htid⟩ := find?_mem_id hfindt
  have hemem : (i, ok) ∈ s.outcomes := List.mem_of_find?_eq_some hfinde
  have hout := hinv.2.2.2.2.2
  have huniq := hinv.2.1
  have hidx := hinv.2.2.2.1
  -- the chain invariant, for each of the three status write-backs
  have hidxPres : ∀ (f : ETask → ETask),
      (∀ u, (f u).id = u.id) → (∀ u, (f u).kind = u.kind) →
      (∀ u, (f u).subject = u.subject) → (∀ u, (f u).priority = u.priority) →
      (∀ u, (f u).payload = u.payload) →
      (ok = true → ∀ u, (f u).status = .completed) →
      InvIndex { s with
        tasks := updTask s.tasks i f,
        outcomes := s.outcomes.eraseP (fun e => e.1 == i) } := by
    intro f hid hkind hsub hpri hpay hfst
    intro t' ht' hk
    obtain ⟨u, hu, hc⟩ := of_mem_updTask ht'
    have hukind : t'.kind = u.kind := by
      rcases hc with ⟨_, rfl⟩ | ⟨_, rfl⟩
      · rfl
      · exact hkind u
    have hufields : t'.subject = u.subject ∧ t'.priority = u.priority ∧
        t'.payload = u.payload := by
      rcases hc with ⟨_, rfl⟩ | ⟨_, rfl⟩
      · exact ⟨rfl, rfl, rfl⟩
      · exact ⟨hsub u, hpri u, hpay u⟩
    obtain ⟨p, hp, hpk, hpsub, hppri, hpay', hpst⟩ :=
      hidx u hu (by rw [← hukind, hk])
    by_cases hpi : p.id = i
    · -- the referenced Parse task is the one being reported on
      have hpt : p = t := unique_by_id huniq hp htmem (by rw [hpi, htid])
      rcases hpst with h1 | ⟨-, h2⟩
      · rw [hpt] at h1; rw [h1] at hst; cases hst
      · -- its recorded outcome must be the found entry, hence a success
        have hok : ok = true := by
          have he : ((p.id, true) : Nat × Bool) = (i, ok) :=
            unique_by_fst hout h2 hemem (by rw [hpi])
          have := congrArg Prod.snd he
          simpa using this.symm
        refine ⟨f p, mem_updTask_self hp hpi, ?_, ?_, ?_, ?_, ?_⟩
        · rw [hkind p]; exact hpk
        · rw [hsub p, hpsub, ← hufields.1]
        · rw [hpri p, hppri, ← hufields.2.1]
        · rw [hufields.2.2, hsub p]; exact hpay'
        · exact Or.inl (hfst hok p)
    · refine ⟨p, mem_updTask_of_ne hp hpi, hpk, ?_, ?_, ?_, ?_⟩
      · rw [hpsub, ← hufields.1]
      · rw [hppri, ← hufields.2.1]
      · rw [hufields.2.2]; exact hpay'
      · rcases hpst with h1 | ⟨h1, h2⟩
        · exact Or.inl h1
        · exact Or.inr ⟨h1, mem_eraseP_of_not h2 (by simp [hpi])⟩
  have houtPres :
      List.Pairwise (fun a b : Nat × Bool => a.1 ≠ b.1)
        (s.outcomes.eraseP (fun e => e.1 == i)) :=
    List.Pairwise.sublist (List.eraseP_sublist _) hout
  rcases hcases with ⟨hok, rfl⟩ | ⟨hok, ha, rfl⟩ | ⟨hok, ha, rfl⟩
  · -- success write-back: mark Completed
    have hcore := invCore_updTask hinv i
      (fun u => { u with status := TaskStatus.completed }) (fun u => rfl)
    refine ⟨hcore.1, hcore.2.1, hcore.2.2, ?_, ?_, houtPres⟩
    · exact hidxPres _ (fun u => rfl) (fun u => rfl) (fun u => rfl)
        (fun u => rfl) (fun u => rfl) (fun _ u => rfl)
    · intro t' ht'
      obtain ⟨u, hu, hc⟩ := of_mem_updTask ht'
      have hattu := hinv.2.2.2.2.1 u hu
      rcases hc with ⟨_, rfl⟩ | ⟨hui, rfl⟩
      · exact hattu
      · exact ⟨(fun hc => by cases hc),
          fun hm => ⟨(hattu.2 hm).1, fun hpr => by
            rcases hpr with hc | hc <;> cases hc⟩⟩
  · -- failure below the retry bound: mark Retrying, attempt+1
    have hcore := invCore_updTask hinv i
      (fun u => { u with status := TaskStatus.retrying, attempt := u.attempt + 1 })
      (fun u => rfl)
    refine ⟨hcore.1, hcore.2.1, hcore.2.2, ?_, ?_, houtPres⟩
    · exact hidxPres _ (fun u => rfl) (fun u => rfl) (fun u => rfl)
        (fun u => rfl) (fun u => rfl) (fun hc => by cases hok.symm.trans hc)
    · intro t' ht'
      obtain ⟨u, hu, hc⟩ := of_mem_updTask ht'
      have hattu := hinv.2.2.2.2.1 u hu
      rcases hc with ⟨_, rfl⟩ | ⟨hui, rfl⟩
      · exact hattu
      · have hut : u = t := unique_by_id huniq hu htmem (by rw [hui, htid])
        subst hut
        refine ⟨fun _ => ha, fun _ => ⟨Nat.le_of_lt ha, fun hpr => by
          rcases hpr with hc | hc <;> cases hc⟩⟩
  · -- retries exhausted: terminally Failed, attempt+1
    have hcore := invCore_updTask hinv i
      (fun u => { u with status := TaskStatus.failed, attempt := u.attempt + 1 })
      (fun u => rfl)
    refine ⟨hcore.1, hcore.2.1, hcore.2.2, ?_, ?_, houtPres⟩
    · exact hidxPres _ (fun u => rfl) (fun u => rfl) (fun u => rfl)
        (fun u => rfl) (fun u => rfl) (fun hc => by cases hok.symm.trans hc)
    · intro t' ht'
      obtain ⟨u, hu, hc⟩ := of_mem_updTask ht'
      have hattu := hinv.2.2.2.2.1 u hu
      rcases hc with ⟨_, rfl⟩ | ⟨hui, rfl⟩
      · exact hattu
      · have hut : u = t := unique_by_id huniq hu htmem (by rw [hui, htid])
        subst hut
        refine ⟨(fun hc => by cases hc), fun hm => ⟨?_, fun hpr => by
          rcases hpr with hc | hc <;> cases hc⟩⟩
        have := (hattu.2 hm).2 (Or.inr hst)
        show u.attempt + 1 ≤ s.cfg.maxAttempts
        omega

lemma engineInv_step {s s' : EngineSt} (hinv : EngineInv s)
    (h : EngineStep s s') : EngineInv s' := by
  cases h with
  | submit p pr h => exact engineInv_processFile hinv h
  | start i h => exact engineInv_startTask hinv h
  | exec i ok h => exact engineInv_execTask hinv h
  | report i h => exact engineInv_reportOutcome hinv h
  | requeue i h => exact engineInv_requeueTask hinv h

lemma engineInv_init (cfg : EngineConfig) : EngineInv (initEngine cfg) := by
  refine ⟨?_, ?_, rfl, ?_, ?_, ?_⟩ <;>
    simp [InvIds, InvUniq, InvIndex, InvAttempt, InvOutUniq, initEngine]

lemma engineInv_reachable {cfg : EngineConfig} {s : EngineSt}
    (h : EngineReachable cfg s) : EngineInv s := by
  induction h with
  | refl => exact engineInv_init cfg
  | tail hsteps hstep ih => exact engineInv_step ih hstep

lemma engineInv_rtg {s s' : EngineSt} (hinv : EngineInv s)
    (h : Relation.ReflTransGen EngineStep s s') : EngineInv s' := by
  induction h with
  | refl => exact hinv
  | tail hsteps hstep ih => exact engineInv_step ih hstep

lemma reachable_cfg {cfg : EngineConfig} {s : EngineSt}
    (h : EngineReachable cfg s) : s.cfg = cfg := by
  induction h with
  | refl => rfl
  | tail hsteps hstep ih => rw [engineStep_cfg hstep, ih]

lemma terminal_ne_found {s : EngineSt} (huniq : InvUniq s) {t tf : ETask}
    {i : Nat} (ht : t ∈ s.tasks)
    (hfind : s.tasks.find? (fun v => v.id == i) = some tf)
    (hterm : t.status = .completed ∨ t.status = .failed)
    (hnterm : ¬ (tf.status = .completed ∨ tf.status = .failed)) : t.id ≠ i := by
  intro he
  obtain ⟨hmemf, hidf⟩ := find?_mem_id hfind
  have he2 : t = tf := unique_by_id huniq ht hmemf (by rw [he, hidf])
  exact hnterm (he2 ▸ hterm)

/-- A Completed or terminally Failed task is untouched by every engine step:
the very same record stays in the task list. -/
lemma step_preserves_terminal {s s' : EngineSt} (hinv : EngineInv s)
    (h : EngineStep s s') {t : ETask} (ht : t ∈ s.tasks)
    (hterm : t.status = .completed ∨ t.status = .failed) : t ∈ s'.tasks := by
  cases h with
  | submit p pr h =>
      obtain ⟨-, rfl⟩ := processFile_some h
      exact List.mem_append_left _ ht
  | start i h =>
      obtain ⟨tf, hfind, hstf, rfl⟩ := startTask_some h
      exact mem_updTask_of_ne ht (terminal_ne_found hinv.2.1 ht hfind hterm
        (by rw [hstf]; rintro (hc | hc) <;> cases hc))
  | exec i ok h =>
      obtain ⟨tf, hfind, hstf, hna, hcases⟩ := execTask_some h
      rcases hcases with ⟨-, -, -, rfl⟩ | ⟨-, -, -, rfl⟩ | ⟨-, -, rfl⟩ | ⟨-, rfl⟩
      · exact List.mem_append_left _ ht
      · exact ht
      · exact ht
      · exact ht
  | report i h =>
      obtain ⟨ok, tf, hfinde, hfindt, hstf, hcases⟩ := reportOutcome_some h
      have hne := terminal_ne_found hinv.2.1 ht hfindt hterm
        (by rw [hstf]; rintro (hc | hc) <;> cases hc)
      rcases hcases with ⟨-, rfl⟩ | ⟨-, -, rfl⟩ | ⟨-, -, rfl⟩
      · exact mem_updTask_of_ne ht hne
      · exact mem_updTask_of_ne ht hne
      · exact mem_updTask_of_ne ht hne
  | requeue i h =>
      obtain ⟨tf, hfind, hstf, rfl⟩ := requeueTask_some h
      exact mem_updTask_of_ne ht (terminal_ne_found hinv.2.1 ht hfind hterm
        (by rw [hstf]; rintro (hc | hc) <;> cases hc))

lemma terminal_persists {s s' : EngineSt} (hinv : EngineInv s)
    (h : Relation.ReflTransGen EngineStep s s') {t : ETask}
    (ht : t ∈ s.tasks)
    (hterm : t.status = .completed ∨ t.status = .failed) : t ∈ s'.tasks := by
  induction h with
  | refl => exact ht
  | tail hsteps hstep ih =>
      exact step_preserves_terminal (engineInv_rtg hinv hsteps) hstep ih hterm

/-- Every step leaves a task unchanged, creates it fresh as Pending with
attempt 0, or moves it along exactly one edge of the state machine keeping
id/kind/subject/priority. -/
lemma step_edges {s s' : EngineSt} (hinv : EngineInv s) (h : EngineStep s s') :
    ∀ t' ∈ s'.tasks, t' ∈ s.tasks ∨
      (t'.status = .pending ∧ t'.attempt = 0) ∨
      ∃ t ∈ s.tasks, t.id = t'.id ∧ t.kind = t'.kind ∧
        t.subject = t'.subject ∧ t.priority = t'.priority ∧
        StatusEdge t.status t'.status := by
  intro t' ht'
  cases h with
  | submit p pr h =>
      obtain ⟨-, rfl⟩ := processFile_some h
      rcases List.mem_append.mp ht' with h1 | h1
      · exact Or.inl h1
      · rw [List.mem_singleton.mp h1]
        exact Or.inr (Or.inl ⟨rfl, rfl⟩)
  | start i h =>
      obtain ⟨tf, hfind, hstf, rfl⟩ := startTask_some h
      obtain ⟨hmemf, hidf⟩ := find?_mem_id hfind
      obtain ⟨u, hu, hc⟩ := of_mem_updTask ht'
      rcases hc with ⟨-, rfl⟩ | ⟨hui, rfl⟩
      · exact Or.inl hu
      · have hut : u = tf := unique_by_id hinv.2.1 hu hmemf (by rw [hui, hidf])
        refine Or.inr (Or.inr ⟨u, hu, rfl, rfl, rfl, rfl, ?_⟩)
        rw [hut, hstf]
        exact StatusEdge.startE
  | exec i ok h =>
      obtain ⟨tf, hfind, hstf, hna, hcases⟩ := execTask_some h
      rcases hcases with ⟨-, -, -, rfl⟩ | ⟨-, -, -, rfl⟩ | ⟨-, -, rfl⟩ | ⟨-, rfl⟩
      · rcases List.mem_append.mp ht' with h1 | h1
        · exact Or.inl h1
        · rw [List.mem_singleton.mp h1]
          exact Or.inr (Or.inl ⟨rfl, rfl⟩)
      · exact Or.inl ht'
      · exact Or.inl ht'
      · exact Or.inl ht'
  | report i h =>
      obtain ⟨ok, tf, hfinde, hfindt, hstf, hcases⟩ := reportOutcome_some h
      obtain ⟨hmemf, hidf⟩ := find?_mem_id hfindt
      rcases hcases with ⟨-, rfl⟩ | ⟨-, -, rfl⟩ | ⟨-, -, rfl⟩
      · obtain ⟨u, hu, hc⟩ := of_mem_updTask ht'
        rcases hc with ⟨-, rfl⟩ | ⟨hui, rfl⟩
        · exact Or.inl hu
        · have hut : u = tf := unique_by_id hinv.2.1 hu hmemf (by rw [hui, hidf])
          refine Or.inr (Or.inr ⟨u, hu, rfl, rfl, rfl, rfl, ?_⟩)
          rw [hut, hstf]
          exact StatusEdge.completeE
      · obtain ⟨u, hu, hc⟩ := of_mem_updTask ht'
        rcases hc with ⟨-, rfl⟩ | ⟨hui, rfl⟩
        · exact Or.inl hu
        · have hut : u = tf := unique_by_id hinv.2.1 hu hmemf (by rw [hui, hidf])
          refine Or.inr (Or.inr ⟨u, hu, rfl, rfl, rfl, rfl, ?_⟩)
          rw [hut, hstf]
          exact StatusEdge.retryE
      · obtain ⟨u, hu, hc⟩ := of_mem_updTask ht'
        rcases hc with ⟨-, rfl⟩ | ⟨hui, rfl⟩
        · exact Or.inl hu
        · have hut : u = tf := unique_by_id hinv.2.1 hu hmemf (by rw [hui, hidf])
          refine Or.inr (Or.inr ⟨u, hu, rfl, rfl, rfl, rfl, ?_⟩)
          rw [hut, hstf]
          exact StatusEdge.failE
  | requeue i h =>
      obtain ⟨tf, hfind, hstf, rfl⟩ := requeueTask_some h
      obtain ⟨hmemf, hidf⟩ := find?_mem_id hfind
      obtain ⟨u, hu, hc⟩ := of_mem_updTask ht'
      rcases hc with ⟨-, rfl⟩ | ⟨hui, rfl⟩
      · exact Or.inl hu
      · have hut : u = tf := unique_by_id hinv.2.1 hu hmemf (by rw [hui, hidf])
        refine Or.inr (Or.inr ⟨u, hu, rfl, rfl, rfl, rfl, ?_⟩)
        rw [hut, hstf]
        exact StatusEdge.requeueE

lemma countStatus_partition (l : List ETask) :
    countStatus l .pending + countStatus l .retrying +
      countStatus l .completed + countStatus l .failed +
      countStatus l .running = l.length := by
  induction l with
  | nil => rfl
  | cons t rest ih =>
      unfold countStatus at *
      cases ht : t.status <;> simp [List.countP_cons, ht] <;> omega

lemma exDup1_reachable : EngineReachable exCfg exDup1 :=
  Relation.ReflTransGen.single (EngineStep.submit "a" 1 rfl)

lemma exDup2_reachable : EngineReachable exCfg exDup2 :=
  exDup1_reachable.tail (EngineStep.submit "a" 1 rfl)

lemma exRun1_reachable : EngineReachable exCfg exRun1 :=
  exDup1_reachable.tail (EngineStep.start 0 rfl)

lemma exMid_reachable : EngineReachable exCfg exMid :=
  exRun1_reachable.tail (EngineStep.exec 0 true rfl)

lemma exDone_reachable : EngineReachable exCfg exDone :=
  exMid_reachable.tail (EngineStep.report 0 rfl)

/-! ### Claim theorems for the priority queue -/

/-- C1: with the queue already holding `maxSize` tasks, `Enqueue` returns
`ErrQueueFull` with the queue unchanged (no task added, none dropped); hence
after `maxSize` submissions into an empty queue the next one fails. -/
theorem enqueue_at_capacity (q : PriorityQueue) (t t' : QTask)
    (ts : List QTask) (hfull : q.maxSize ≤ q.tasks.length)
    (hts : ts.length = q.maxSize) :
    Enqueue q t = (some .queueFull, q) ∧
    ((enqueueAll (emptyQueue q.maxSize) ts).2.tasks.length = q.maxSize ∧
      Enqueue (enqueueAll (emptyQueue q.maxSize) ts).2 t' =
        (some .queueFull, (enqueueAll (emptyQueue q.maxSize) ts).2)) := by
  have h1 : Enqueue q t = (some .queueFull, q) := by
    unfold Enqueue; rw [if_pos hfull]
  have hlen : (enqueueAll (emptyQueue q.maxSize) ts).2.tasks.length
      = q.maxSize := by
    rw [enqueueAll_tasks ts (emptyQueue q.maxSize) (by simp [emptyQueue, hts])]
    have : ∀ l s, (withSeqs l s).length = l.length := by
      intro l
      induction l with
      | nil => intro s; rfl
      | cons a l ih => intro s; simp [withSeqs, ih]
    simp [emptyQueue, this, hts]
  have hms : (enqueueAll (emptyQueue q.maxSize) ts).2.maxSize = q.maxSize := by
    have : ∀ (l : List QTask) (qq : PriorityQueue),
        (enqueueAll qq l).2.maxSize = qq.maxSize := by
      intro l
      induction l with
      | nil => intro qq; rfl
      | cons a l ih =>
          intro qq
          show (enqueueAll (Enqueue qq a).2 l).2.maxSize = _
          rw [ih, enqueue_maxSize]
    simp [this, emptyQueue]
  refine ⟨h1, hlen, ?_⟩
  unfold Enqueue
  rw [if_pos (by rw [hlen, hms])]

/-- Witness for C1: a queue of capacity 2 holding 2 tasks rejects the next
enqueue unchanged, and the 3rd submission to an empty capacity-2 queue fails. -/
theorem enqueue_at_capacity_witness :
    Enqueue ⟨[⟨0, 1, 0⟩, ⟨1, 2, 1⟩], 2, 2⟩ ⟨2, 0, 0⟩ =
      (some .queueFull, ⟨[⟨0, 1, 0⟩, ⟨1, 2, 1⟩], 2, 2⟩) ∧
    ((enqueueAll (emptyQueue 2) [⟨0, 1, 0⟩, ⟨1, 2, 0⟩]).2.tasks.length = 2 ∧
      Enqueue (enqueueAll (emptyQueue 2) [⟨0, 1, 0⟩, ⟨1, 2, 0⟩]).2 ⟨2, 0, 0⟩ =
        (some .queueFull, (enqueueAll (emptyQueue 2) [⟨0, 1, 0⟩, ⟨1, 2, 0⟩]).2)) :=
  enqueue_at_capacity ⟨[⟨0, 1, 0⟩, ⟨1, 2, 1⟩], 2, 2⟩ ⟨2, 0, 0⟩ ⟨2, 0, 0⟩
    [⟨0, 1, 0⟩, ⟨1, 2, 0⟩] (by decide) (by decide)

/-- C6: the dequeue sequence of any queue contents is sorted by the pair
(priority, sequence counter) — lower priority value first, FIFO within equal
priority — and is a permutation of the contents; `Dequeue` produces exactly
this sequence; and enqueueing assigns strictly increasing sequence numbers in
insertion order, making the sort deterministic. -/
theorem dequeue_priority_order (q : PriorityQueue) (ts : List QTask)
    (hts : ts.length ≤ q.maxSize) :
    List.Sorted keyLE (drain q.tasks) ∧
    List.Perm (drain q.tasks) q.tasks ∧
    (∀ t q', Dequeue q = some (t, q') → drain q.tasks = t :: drain q'.tasks) ∧
    ((enqueueAll (emptyQueue q.maxSize) ts).2.tasks.map (·.seq) =
      List.range' 0 ts.length) := by
  refine ⟨drain_sorted q.tasks, drain_perm q.tasks, ?_, ?_⟩
  · intro t q' hdq
    unfold Dequeue at hdq
    match hq : q.tasks with
    | [] => rw [hq] at hdq; cases hdq
    | a :: as =>
        rw [hq] at hdq
        simp only [Option.some.injEq, Prod.mk.injEq] at hdq
        obtain ⟨rfl, rfl⟩ := hdq
        show drain (a :: as) =
          selectMin a as :: drain ((a :: as).erase (selectMin a as))
        rw [drain_cons]
  · rw [enqueueAll_tasks ts (emptyQueue q.maxSize) (by simp [emptyQueue, hts])]
    simp [emptyQueue, withSeqs_map_seq]

/-- Witness for C6: a concrete queue with a priority tie dequeues in
(priority, seq) order, and sequence numbers are assigned 0,1,2. -/
theorem dequeue_priority_order_witness :
    List.Sorted keyLE (drain [⟨0, 5, 0⟩, ⟨1, 1, 1⟩, ⟨2, 5, 2⟩]) ∧
    List.Perm (drain [⟨0, 5, 0⟩, ⟨1, 1, 1⟩, ⟨2, 5, 2⟩])
      [⟨0, 5, 0⟩, ⟨1, 1, 1⟩, ⟨2, 5, 2⟩] ∧
    (∀ t q', Dequeue ⟨[⟨0, 5, 0⟩, ⟨1, 1, 1⟩, ⟨2, 5, 2⟩], 4, 3⟩ = some (t, q') →
      drain [⟨0, 5, 0⟩, ⟨1, 1, 1⟩, ⟨2, 5, 2⟩] = t :: drain q'.tasks) ∧
    ((enqueueAll (emptyQueue 4) [⟨0, 5, 9⟩, ⟨1, 1, 9⟩, ⟨2, 5, 9⟩]).2.tasks.map
        (·.seq) = List.range' 0 3) :=
  dequeue_priority_order ⟨[⟨0, 5, 0⟩, ⟨1, 1, 1⟩, ⟨2, 5, 2⟩], 4, 3⟩
    [⟨0, 5, 9⟩, ⟨1, 1, 9⟩, ⟨2, 5, 9⟩] (by decide)

/-! ### Claim theorems for the CLI layer -/

/-- C8: for every ProgressBar created with a positive total, after any
sequence of UpdateTo, Add, Update, Finish and SetTotal-to-positive calls the
invariant `0 ≤ current ≤ total` holds, and Finish sets `current = total`. -/
theorem progressBar_invariant (total : Int) (ops : List PBOp)
    (htotal : 0 < total) (hops : ∀ op ∈ ops, pbOpPositive op) :
    let pb := applyPBOps (NewProgressBar total) ops
    (0 ≤ pb.current ∧ pb.current ≤ pb.total) ∧
      (pb.Finish).current = pb.total := by
  intro pb
  have hinv : PBInv pb :=
    pbInv_applyOps ⟨htotal, le_refl 0, le_of_lt htotal⟩ hops
  refine ⟨⟨hinv.2.1, hinv.2.2⟩, ?_⟩
  unfold ProgressBar.Finish
  rw [if_pos hinv.1]

/-- Witness for C8 at a concrete call sequence. -/
theorem progressBar_invariant_witness :
    let pb := applyPBOps (NewProgressBar 10)
      [.updateTo 5, .add 100, .setTotal 3, .update, .finish]
    (0 ≤ pb.current ∧ pb.current ≤ pb.total) ∧
      (pb.Finish).current = pb.total :=
  progressBar_invariant 10
    [.updateTo 5, .add 100, .setTotal 3, .update, .finish]
    (by decide) (by decide)

/-- C9: `validateConfig` succeeds (returns Go `nil`) exactly when maxWorkers
∈ [1,50], batchSize ∈ [1,10000] and indexType is full, incremental or
partial; any configuration violating one of the three bounds errors. -/
theorem validateConfig_ok_iff (c : IndexConfig) :
    validateConfig c = none ↔
      (1 ≤ c.maxWorkers ∧ c.maxWorkers ≤ 50 ∧
       1 ≤ c.batchSize ∧ c.batchSize ≤ 10000 ∧
       (c.indexType = "full" ∨ c.indexType = "incremental" ∨
        c.indexType = "partial")) := by
  unfold validateConfig
  split
  · constructor
    · intro h; cases h
    · intro h; omega
  · split
    · constructor
      · intro h; cases h
      · intro h; omega
    · split
      · constructor
        · intro h; cases h
        · intro h; tauto
      · constructor
        · intro _; refine ⟨by omega, by omega, by omega, by omega, by tauto⟩
        · intro _; rfl

/-- C10: `GetProgress` never divides by zero: it returns 0 whenever
`total ≤ 0`, otherwise returns `current / total`, which lies in [0,1]
whenever `0 ≤ current ≤ total`. -/
theorem getProgress_safe (pb : ProgressBar) :
    (pb.total ≤ 0 → pb.GetProgress = 0) ∧
    (0 < pb.total → pb.GetProgress = (pb.current : ℚ) / (pb.total : ℚ)) ∧
    (0 < pb.total → 0 ≤ pb.current → pb.current ≤ pb.total →
      0 ≤ pb.GetProgress ∧ pb.GetProgress ≤ 1) := by
  unfold ProgressBar.GetProgress
  refine ⟨fun h => by simp [h], fun h => by simp [not_le.mpr h], ?_⟩
  intro ht h0 h1
  rw [if_neg (not_le.mpr ht)]
  have htq : (0 : ℚ) < (pb.total : ℚ) := by exact_mod_cast ht
  have h0q : (0 : ℚ) ≤ (pb.current : ℚ) := by exact_mod_cast h0
  have h1q : (pb.current : ℚ) ≤ (pb.total : ℚ) := by exact_mod_cast h1
  exact ⟨div_nonneg h0q (le_of_lt htq), (div_le_one htq).mpr h1q⟩

/-- Witness for C10 on concrete bars: zero total (the cli_test.go case) and a
half-full bar. -/
theorem getProgress_safe_witness :
    (ProgressBar.GetProgress ⟨0, 0⟩ = 0) ∧
    (ProgressBar.GetProgress ⟨100, 50⟩ = (50 : ℚ) / 100 ∧
      0 ≤ ProgressBar.GetProgress ⟨100, 50⟩ ∧
      ProgressBar.GetProgress ⟨100, 50⟩ ≤ 1) :=
  ⟨(getProgress_safe ⟨0, 0⟩).1 (by decide),
   ⟨(getProgress_safe ⟨100, 50⟩).2.1 (by decide),
    (getProgress_safe ⟨100, 50⟩).2.2 (by decide) (by decide) (by decide)⟩⟩

/-! ### Claim theorems for the orchestration core -/

/-- C2 counterexample: the documented `processFile` performs no per-path
deduplication, so after two Submits for path "a" the reachable state
`exDup2` holds two Pending tasks for "a" — the at-most-one-in-flight claim
is false. -/
theorem dedup_invariant_cex :
    ¬ (∀ s : EngineSt, EngineReachable exCfg s →
        ∀ path : String, inFlightCount s path ≤ 1) := by
  intro hclaim
  have h2 := hclaim exDup2 exDup2_reachable "a"
  have he : inFlightCount exDup2 "a" = 2 := by decide
  omega

/-- C2 amended: `processFile` neither coalesces nor re-prioritises: every
accepted Submit appends a fresh Pending Parse task for the path, leaving all
existing tasks (in-flight ones for the same path included) unchanged. -/
theorem submit_no_dedup (s : EngineSt) (path : String) (prio : Int)
    (s' : EngineSt) (h : processFile s path prio = some s') :
    s'.tasks = s.tasks ++ [⟨s.nextId, .parse, path, prio, .pending, 0, none⟩] ∧
    ∀ t ∈ s.tasks, t ∈ s'.tasks := by
  obtain ⟨-, rfl⟩ := processFile_some h
  exact ⟨rfl, fun t ht => List.mem_append_left _ ht⟩

/-- Witness for the amended C2: the second Submit for "a" appends a second
Parse task while keeping the first. -/
theorem submit_no_dedup_witness :
    exDup2.tasks = exDup1.tasks ++
      [⟨exDup1.nextId, .parse, "a", 1, .pending, 0, none⟩] ∧
    ∀ t ∈ exDup1.tasks, t ∈ exDup2.tasks :=
  submit_no_dedup exDup1 "a" 1 exDup2 rfl

/-- C3 counterexample: the claim that an Index task is only ever created
after its Parse task reached Completed status fails on the documented code.
`processParseTask` enqueues the Index task itself and only afterwards does
`handleTaskSuccess` mark the Parse task Completed, so the reachable state
`exMid` holds a Pending Index task for "a" while its Parse task is still
Running — with no Completed Parse task present at all. -/
theorem index_before_complete_cex :
    ¬ (∀ s : EngineSt, EngineReachable exCfg s →
        ∀ t ∈ s.tasks, t.kind = .index →
          ∃ p ∈ s.tasks, p.kind = .parse ∧ p.subject = t.subject ∧
            p.status = .completed) := by
  intro hclaim
  have h := hclaim exMid exMid_reachable
    ⟨1, .index, "a", 1, .pending, 0, some "a"⟩ (by decide) rfl
  exact absurd h (by decide)

/-- C3 amended: in every reachable engine state, every Index task is backed
by a Parse task for the same subject path with the same priority, whose
parse output the Index task carries as payload, and which either reached
Completed status or is still Running with its success outcome determined and
awaiting the handler's write-back; hence an Index task is created only after
its Parse operation succeeded — though it is briefly observable as Pending
while the Parse task's status is still Running — and no Index task exists
when the Parse task terminally failed. -/
theorem index_after_parse_success {cfg : EngineConfig} {s : EngineSt}
    (h : EngineReachable cfg s) :
    ∀ t ∈ s.tasks, t.kind = .index →
      ∃ p ∈ s.tasks, p.kind = .parse ∧ p.subject = t.subject ∧
        p.priority = t.priority ∧ t.payload = some p.subject ∧
        (p.status = .completed ∨
          (p.status = .running ∧ (p.id, true) ∈ s.outcomes)) :=
  (engineInv_reachable h).2.2.2.1

/-- Witness for the amended C3 at the mid-window state `exMid`: the Index
task's Parse task is Running with its success recorded. -/
theorem index_after_parse_success_witness :
    ∃ p ∈ exMid.tasks, p.kind = .parse ∧ p.subject = "a" ∧
      p.priority = 1 ∧ (some "a" : Option String) = some p.subject ∧
      (p.status = .completed ∨
        (p.status = .running ∧ (p.id, true) ∈ exMid.outcomes)) :=
  index_after_parse_success exMid_reachable
    ⟨1, .index, "a", 1, .pending, 0, some "a"⟩ (by decide) rfl

/-- C4: the retry delay follows `min(maxDelay, baseDelay * 2^attempt)` with
the configured defaults (1s base, 30s cap), is monotonically non-decreasing
and capped; a task with `maxAttempts = 3` and an always-failing collaborator
performs exactly 3 executions with non-decreasing delays between them; and a
task whose failure exhausts `maxAttempts` becomes terminally Failed, after
which no engine step touches it. -/
theorem retry_backoff_policy (a : Nat) :
    backoffDelay a = min 30000 (1000 * 2 ^ a) ∧
    backoffDelay a ≤ backoffDelay (a + 1) ∧
    backoffDelay a ≤ maxDelayMs ∧
    failingRun 3 = (3, [2000, 4000]) ∧
    List.Chain' (· ≤ ·) (failingRun 3).2 ∧
    (∀ s s' : EngineSt, ∀ i : Nat, ∀ t : ETask,
      reportOutcome s i = some s' →
      s.outcomes.find? (fun e => e.1 == i) = some (i, false) →
      s.tasks.find? (fun u => u.id == i) = some t →
      s.cfg.maxAttempts ≤ t.attempt + 1 →
      { t with status := TaskStatus.failed, attempt := t.attempt + 1 } ∈
        s'.tasks) ∧
    (∀ s s' : EngineSt, EngineInv s → EngineStep s s' →
      ∀ t ∈ s.tasks, t.status = .failed → t ∈ s'.tasks) := by
  have h4 : failingRun 3 = (3, [2000, 4000]) := by decide
  refine ⟨rfl, ?_, Nat.min_le_left _ _, h4, ?_, ?_, ?_⟩
  · exact min_le_min (Nat.le_refl _)
      (Nat.mul_le_mul_left _ (Nat.pow_le_pow_right (by norm_num) (Nat.le_succ a)))
  · rw [h4]
    exact List.chain'_cons.mpr ⟨by norm_num, List.chain'_singleton _⟩
  · intro s s' i t h hfinde hfind hge
    obtain ⟨ok, tf, hfindef, hfindf, hstf, hcases⟩ := reportOutcome_some h
    have htf : tf = t := Option.some.inj (hfindf.symm.trans hfind)
    subst htf
    have hok : ok = false := by
      have := Option.some.inj (hfindef.symm.trans hfinde)
      simpa using congrArg Prod.snd this
    subst hok
    rcases hcases with ⟨hc, -⟩ | ⟨-, hlt, -⟩ | ⟨-, -, rfl⟩
    · cases hc
    · omega
    · exact mem_updTask_self (find?_mem_id hfindf).1 (find?_mem_id hfindf).2
  · intro s s' hinv hstep t ht hfailed
    exact step_preserves_terminal hinv hstep ht (Or.inr hfailed)

/-- Witness for C4: reporting the failed last attempt of `exRunFail`'s
Running task yields the Failed record of `exFailed`, and a subsequent Submit
step leaves that Failed record untouched in `exFailed2`. -/
theorem retry_backoff_policy_witness :
    ((⟨0, .parse, "b", 1, .failed, 3, none⟩ : ETask) ∈ exFailed.tasks) ∧
    ((⟨0, .parse, "b", 1, .failed, 3, none⟩ : ETask) ∈ exFailed2.tasks) :=
  ⟨(retry_backoff_policy 0).2.2.2.2.2.1 exRunFail exFailed 0
      ⟨0, .parse, "b", 1, .running, 2, none⟩ rfl rfl rfl (by decide),
   (retry_backoff_policy 0).2.2.2.2.2.2 exFailed exFailed2 (by decide)
      (EngineStep.submit "c" 1 rfl)
      ⟨0, .parse, "b", 1, .failed, 3, none⟩ (by decide) rfl⟩

/-- C5: task status follows the documented state machine.  Once a task is
Completed or terminally Failed, every later reachable state still holds the
identical record (immutable, never re-enqueued); each single step either
leaves a task unchanged, creates a fresh Pending task with attempt 0, or
moves one task along one state-machine edge preserving its identity; and the
Retrying cycle is bounded by `attempt ≤ maxAttempts`. -/
theorem task_state_machine {cfg : EngineConfig} {s s' : EngineSt}
    (hr : EngineReachable cfg s) (hstep : EngineStep s s') :
    (∀ t ∈ s.tasks, t.status = .completed ∨ t.status = .failed →
      ∀ s'' : EngineSt, Relation.ReflTransGen EngineStep s s'' →
        t ∈ s''.tasks) ∧
    (∀ t' ∈ s'.tasks, t' ∈ s.tasks ∨
      (t'.status = .pending ∧ t'.attempt = 0) ∨
      ∃ t ∈ s.tasks, t.id = t'.id ∧ t.kind = t'.kind ∧
        t.subject = t'.subject ∧ t.priority = t'.priority ∧
        StatusEdge t.status t'.status) ∧
    (∀ t ∈ s.tasks, t.status = .retrying → t.attempt ≤ cfg.maxAttempts) := by
  have hinv := engineInv_reachable hr
  refine ⟨?_, step_edges hinv hstep, ?_⟩
  · intro t ht hterm s'' hs''
    exact terminal_persists hinv hs'' ht hterm
  · intro t ht hret
    have := (hinv.2.2.2.2.1 t ht).1 hret
    rw [reachable_cfg hr] at this
    omega

/-- Witness for C5 at the write-back step from `exMid` (Parse Running, Index
Pending) to `exDone` (Parse Completed). -/
theorem task_state_machine_witness :
    (∀ t ∈ exMid.tasks, t.status = .completed ∨ t.status = .failed →
      ∀ s'' : EngineSt, Relation.ReflTransGen EngineStep exMid s'' →
        t ∈ s''.tasks) ∧
    (∀ t' ∈ exDone.tasks, t' ∈ exMid.tasks ∨
      (t'.status = .pending ∧ t'.attempt = 0) ∨
      ∃ t ∈ exMid.tasks, t.id = t'.id ∧ t.kind = t'.kind ∧
        t.subject = t'.subject ∧ t.priority = t'.priority ∧
        StatusEdge t.status t'.status) ∧
    (∀ t ∈ exMid.tasks, t.status = .retrying →
      t.attempt ≤ exCfg.maxAttempts) :=
  task_state_machine exMid_reachable (EngineStep.report 0 rfl)

/-- C7: after shutdown, the final snapshot satisfies the conservation law
`tasksAbandoned + tasksCompleted + tasksFailed + tasksRunningAtShutdown =
tasksTotal`: every created task is accounted for (tasksTotal equals the
number of task records, each counted in exactly one bucket; abandoned
Pending/Retrying tasks are counted, not executed and not completed). -/
theorem stop_conservation {cfg : EngineConfig} {s : EngineSt}
    (h : EngineReachable cfg s) :
    (StopStatus s).tasksAbandoned + (StopStatus s).tasksCompleted +
      (StopStatus s).tasksFailed + (StopStatus s).tasksRunningAtShutdown =
      (StopStatus s).tasksTotal ∧
    (StopStatus s).tasksTotal = s.tasks.length := by
  have htot : s.tasksTotal = s.tasks.length := (engineInv_reachable h).2.2.1
  have hpart := countStatus_partition s.tasks
  refine ⟨?_, htot⟩
  show countStatus s.tasks .pending + countStatus s.tasks .retrying +
      countStatus s.tasks .completed + countStatus s.tasks .failed +
      countStatus s.tasks .running = s.tasksTotal
  omega

/-- Witness for C7 at the reachable state `exDone` (one Completed, one
Pending task). -/
theorem stop_conservation_witness :
    (StopStatus exDone).tasksAbandoned + (StopStatus exDone).tasksCompleted +
      (StopStatus exDone).tasksFailed +
      (StopStatus exDone).tasksRunningAtShutdown =
      (StopStatus exDone).tasksTotal ∧
    (StopStatus exDone).tasksTotal = exDone.tasks.length :=
  stop_conservation exDone_reachable

end Stroidok
